import Mathlib

/-!
Shallow embedding of `cmd/root.go` of the act CLI invocation-orchestration
layer: configuration-file argument loading (`readArgsFile`, `args`),
env/input/secret overlays (`parseEnvs`, `readEnvs`), event/job plan
resolution, the watch loop (`watchAndRun`), and the artifact-service
execution lifecycle.  External collaborators (workflow planner, plan
executor, artifact service, `godotenv`) are modelled through the narrow
interfaces this file consumes.
-/

namespace Act

/-! ### Character classes and string helpers -/

/-- Character class of the RE2 pattern used in `readArgsFile` to split a flag
line (the Go regular expression matches a single ASCII-whitespace
character). -/
def isRegexSpace (c : Char) : Bool :=
  c == ' ' || c == '\t' || c == '\n' || c == Char.ofNat 12 || c == '\r'

/-- Character class of Go `unicode.IsSpace`, used by `strings.TrimSpace` in
`readArgsFile`. -/
def isGoSpace (c : Char) : Bool :=
  c == ' ' || c == '\t' || c == '\n' || c == Char.ofNat 11 || c == Char.ofNat 12 ||
    c == '\r' || c == Char.ofNat 133 || c == Char.ofNat 160 ||
    c == Char.ofNat 0x1680 || (0x2000 ≤ c.toNat && c.toNat ≤ 0x200A) ||
    c == Char.ofNat 0x2028 || c == Char.ofNat 0x2029 || c == Char.ofNat 0x202F ||
    c == Char.ofNat 0x205F || c == Char.ofNat 0x3000

/-- Split a character list at the first character satisfying `p`: the first
component is everything before that character, the second is `some` of
everything after it (the matched character is dropped), or `none` when no
character matches.  This models both Go `regexp.Split(s, 2)` for a
single-character pattern and `strings.SplitN(s, sep, 2)` for a
single-character separator. -/
def splitFirstP (p : Char → Bool) : List Char → List Char × Option (List Char)
  | [] => ([], none)
  | c :: cs =>
    if p c then ([], some cs)
    else (c :: (splitFirstP p cs).1, (splitFirstP p cs).2)

/-- Go `strings.TrimSpace`: drop `unicode.IsSpace` characters from both
ends. -/
def trimSpace (s : String) : String :=
  ⟨((s.data.dropWhile isGoSpace).reverse.dropWhile isGoSpace).reverse⟩

/-- Go `strings.HasPrefix(arg, "-")`. -/
def startsWithDash (s : String) : Bool :=
  match s.data with
  | '-' :: _ => true
  | _ => false

/-- The call `regexp.MustCompile(..).Split(arg, 2)` in `readArgsFile`: split
at the first ASCII-whitespace character into at most two pieces; the second
piece is the remainder of the string kept verbatim. -/
def splitArgTwo (s : String) : List String :=
  match splitFirstP isRegexSpace s.data with
  | (a, none) => [⟨a⟩]
  | (a, some b) => [⟨a⟩, ⟨b⟩]

/-! ### Configuration-file argument loading (`readArgsFile`, `args`) -/

/-- Body of the scanner loop of `readArgsFile` for one line: trim the line;
in split mode a line starting with `-` contributes its at-most-two split
tokens and any other line is dropped; in no-split mode every trimmed line is
appended verbatim. -/
def argsFileStep (split : Bool) (args : List String) (line : String) : List String :=
  let arg := trimSpace line
  if startsWithDash arg && split then args ++ splitArgTwo arg
  else if !split then args ++ [arg]
  else args

/-- root.go `readArgsFile`.  The filesystem is modelled as a partial map from
path to the file's lines; `none` means the file cannot be opened, which
yields the empty argument list. -/
def readArgsFile (fs : String → Option (List String)) (file : String)
    (split : Bool) : List String :=
  match fs file with
  | none => []
  | some lines => lines.foldl (argsFileStep split) []

/-- root.go `args`: the effective argument sequence is the split-mode
arguments of each configuration-file candidate in order, followed by the
process's own command-line arguments. -/
def argsEffective (fs : String → Option (List String))
    (configLocations osArgs : List String) : List String :=
  (configLocations.foldl (fun acc f => acc ++ readArgsFile fs f true) []) ++ osArgs

/-- Concatenation of the split-mode arguments of each candidate file in
candidate order, as the spec words the file-derived argument list. -/
def specFilesArgs (fs : String → Option (List String)) : List String → List String
  | [] => []
  | f :: rest => readArgsFile fs f true ++ specFilesArgs fs rest

/-- Split-mode output line by line, as the (amended) spec words it: each
trimmed line starting with a dash contributes its at-most-two tokens in line
order, every other line is discarded. -/
def specSplitLines : List String → List String
  | [] => []
  | l :: rest =>
    (if startsWithDash (trimSpace l) then splitArgTwo (trimSpace l) else []) ++
      specSplitLines rest

/-- No-split-mode output line by line, as the spec words it: every trimmed
line verbatim. -/
def specNoSplitLines : List String → List String
  | [] => []
  | l :: rest => trimSpace l :: specNoSplitLines rest

/-! ### Env/input/secret key-value overlays (`parseEnvs`, `readEnvs`) -/

/-- A Go `map[string]string`, modelled as a partial map. -/
def EnvMap := String → Option String

/-- One map write `m[k] = v`. -/
def mapSet (m : EnvMap) (k v : String) : EnvMap :=
  fun x => if x = k then some v else m x

/-- root.go `parseEnvs`: each token is split by `strings.SplitN(tok, "=", 2)`
into key and value (a bare key gets the empty value) and written into the map
in token order. -/
def parseEnvs (env : List String) (envs : EnvMap) : EnvMap :=
  env.foldl
    (fun m tok =>
      match splitFirstP (fun c => c == '=') tok.data with
      | (k, some v) => mapSet m ⟨k⟩ ⟨v⟩
      | (k, none) => mapSet m ⟨k⟩ "")
    envs

/-- root.go `readEnvs`.  The env file is modelled as `none` when the file does
not exist and otherwise as the list of key-value entries `godotenv.Read`
returns; every entry is written into the map handed in. -/
def readEnvs (file : Option (List (String × String))) (envs : EnvMap) : EnvMap :=
  match file with
  | none => envs
  | some entries => entries.foldl (fun m kv => mapSet m kv.1 kv.2) envs

/-- The env/input/secret loading sequence of `newRunCommand`: explicit tokens
are parsed into a fresh map first, then the corresponding file is read into
the same map. -/
def loadEnvs (tokens : List String)
    (file : Option (List (String × String))) : EnvMap :=
  readEnvs file (parseEnvs tokens (fun _ => none))

/-- The binding of a key that survives folding a list of entries into a map:
the last entry with that key, if any. -/
def lookupLast (entries : List (String × String)) (k : String) : Option String :=
  match entries with
  | [] => none
  | kv :: rest =>
    match lookupLast rest k with
    | some v => some v
    | none => if kv.1 = k then some kv.2 else none

/-! ### Event and plan resolution (`newRunCommand`) -/

/-- A plan request handed to the external workflow planner: `PlanJob`,
`PlanEvent`, or `PlanAll`. -/
inductive PlanSel where
  | job (jobID : String)
  | event (eventName : String)
  | all
  deriving DecidableEq

/-- root.go lines 392-408: resolution of the event name used for the
execution plan.  `args` is the positional argument list, `events` the
planner's discovered trigger events. -/
def resolveExecEventName (args events : List String)
    (autodetectEvent : Bool) : String :=
  if 0 < args.length then args.headD ""
  else if events.length = 1 ∧ 0 < (events.headD "").length then events.headD ""
  else if autodetectEvent ∧ 0 < events.length ∧ 0 < (events.headD "").length then
    events.headD ""
  else "push"

/-- root.go lines 410-417: the execution plan is built by job ID when one was
given, otherwise for the resolved event name. -/
def execPlanSel (jobID : String) (args events : List String)
    (autodetectEvent : Bool) : PlanSel :=
  if jobID ≠ "" then .job jobID
  else .event (resolveExecEventName args events autodetectEvent)

/-- root.go lines 356-378: filter-plan selection, used only for list/graph
output. -/
def filterPlanSel (jobID : String) (args events : List String)
    (autodetectEvent : Bool) : PlanSel :=
  let filterEventName :=
    if 0 < args.length then args.headD ""
    else if autodetectEvent ∧ 0 < events.length ∧ 0 < (events.headD "").length then
      events.headD ""
    else ""
  if jobID ≠ "" then .job jobID
  else if filterEventName ≠ "" then .event filterEventName
  else .all

/-- Execution-plan event resolution as the spec words it: the positional
argument first; else the unique distinct discovered event; else, under
auto-detect, the first discovered event; else the fixed default `push`. -/
def specExecEventName (args events : List String)
    (autodetectEvent : Bool) : String :=
  match args with
  | a :: _ => a
  | [] =>
    if events.dedup.length = 1 then events.dedup.headD ""
    else if autodetectEvent ∧ 0 < events.length then events.headD ""
    else "push"

/-- Execution-plan event resolution as amended: the positional argument
first; else, when the discovered-events list contains exactly one entry, that
event; else, under auto-detect, the first discovered event; else the fixed
default `push`. -/
def specExecEventNameAmended (args events : List String)
    (autodetectEvent : Bool) : String :=
  match args with
  | a :: _ => a
  | [] =>
    if events.length = 1 then events.headD ""
    else if autodetectEvent ∧ 0 < events.length then events.headD ""
    else "push"

/-- Filter-plan selection as the spec words it: the job ID first; else the
positional event argument; else, under auto-detect, the first discovered
event; else all jobs. -/
def specFilterPlanSel (jobID : String) (args events : List String)
    (autodetectEvent : Bool) : PlanSel :=
  if jobID ≠ "" then .job jobID
  else
    match args with
    | a :: _ => .event a
    | [] =>
      if autodetectEvent ∧ 0 < events.length then .event (events.headD "")
      else .all

/-! ### The watch loop (`watchAndRun`) -/

/-- The inner `for changes := range folderWatcher.ChangeDetails()` loop of the
goroutine in `watchAndRun` (root.go lines 588-594), modelled sequentially.
`fn k` is the result of the k-th executor invocation (`none` = success) and
`batches` the number of change batches the watcher delivers before
cancellation; `k` is the number of invocations already made.  Each delivered
batch triggers one invocation.  On failure the `break` leaves only this inner
loop, so control returns to the outer `for folderWatcher.IsRunning()` check,
which immediately invokes the executor once more: on failure there the outer
`break` ends the goroutine with that error, on success the inner loop resumes
on the remaining batches.  When the change channel is exhausted the loop
blocks until cancellation stops the watcher; the shared `err` then still
holds the `nil` of the last (successful) pass.  Returns the total number of
invocations and the final value of `err`. -/
def watchInnerGo (fn : Nat → Option String) : Nat → Nat → Nat × Option String
  | k, 0 => (k, none)
  | k, b + 1 =>
    match fn k with
    | none => watchInnerGo fn (k + 1) b
    | some _ =>
      match fn (k + 1) with
      | some e => (k + 2, some e)
      | none => watchInnerGo fn (k + 2) b

/-- The goroutine body of root.go `watchAndRun` (lines 582-596): one
invocation at the top of the outer loop; on failure the outer `break` ends
the loop with that error, on success the inner change-batch loop runs.
Returns the total number of executor invocations and the final value of the
shared `err` variable, which `watchAndRun` returns after cancellation. -/
def watchAndRunLoop (fn : Nat → Option String) (batches : Nat) :
    Nat × Option String :=
  match fn 0 with
  | some e => (1, some e)
  | none => watchInnerGo fn 1 batches

/-! ### Execution lifecycle (artifact service, `Finally`) -/

/-- Observable actions of one invocation: artifact-service start,
artifact-service cancellation, and one plan-executor pass. -/
inductive LifeEvent where
  | serveStart
  | serveStop
  | exec
  deriving DecidableEq

/-- A `common.Executor`, modelled as a trace transformer returning an
optional error. -/
def Executor := List LifeEvent → List LifeEvent × Option String

/-- Modelled from the spec: `artifacts.Serve` (pkg/artifacts, not under src/)
starts the artifact service unless the storage path is empty; this is the
trace effect of the `Serve` call itself. -/
def artifactsServeEffect (path : String) (tr : List LifeEvent) : List LifeEvent :=
  if path = "" then tr else tr ++ [LifeEvent.serveStart]

/-- Modelled from the spec: the cancellation function returned by
`artifacts.Serve`, a no-op when the storage path is empty and otherwise
stopping the service. -/
def artifactsCancelEffect (path : String) (tr : List LifeEvent) : List LifeEvent :=
  if path = "" then tr else tr ++ [LifeEvent.serveStop]

/-- Modelled from the spec: `common.Executor.Finally` (pkg/common, not under
src/) appends a cleanup stage that always runs after the main stage,
whatever its outcome; the execution result takes priority over the cleanup
stage's result. -/
def finallyExec (main post : Executor) : Executor :=
  fun tr =>
    let r := main tr
    let r2 := post r.1
    (r2.1, r.2)

/-- A plan executor recording one `exec` event and returning `res`: the
observable shape of one invocation of `runner.NewPlanExecutor(plan)`. -/
def planExecOnce (res : Option String) : Executor :=
  fun tr => (tr ++ [LifeEvent.exec], res)

/-- root.go lines 498-511, non-watch branch: `Serve` is called, the plan
executor is wrapped with a `Finally` stage invoking the cancellation, and the
wrapped executor runs once. -/
def nonWatchRun (path : String) (planExec : Executor) :
    List LifeEvent × Option String :=
  let tr := artifactsServeEffect path []
  let executor := finallyExec planExec (fun tr2 => (artifactsCancelEffect path tr2, none))
  executor tr

/-- root.go lines 498-504, watch branch: `Serve` is called, then `watchAndRun`
receives the bare plan executor (no `Finally` stage), each loop pass appending
one `exec` event, and nothing after the loop invokes the cancellation. -/
def watchModeRun (path : String) (fn : Nat → Option String) (batches : Nat) :
    List LifeEvent × Option String :=
  let r := watchAndRunLoop fn batches
  (artifactsServeEffect path [] ++ List.replicate r.1 LifeEvent.exec, r.2)

/-! ## Theorems -/

theorem strLength_pos (s : String) (h : s ≠ "") : 0 < s.length := by
  cases s with
  | mk l =>
    cases l with
    | nil => exact absurd rfl h
    | cons c cs => simp [String.length]

theorem foldl_readArgs_append (fs : String → Option (List String))
    (cfgs : List String) (acc : List String) :
    cfgs.foldl (fun a f => a ++ readArgsFile fs f true) acc =
      acc ++ specFilesArgs fs cfgs := by
  induction cfgs generalizing acc with
  | nil => simp [specFilesArgs]
  | cons f rest ih => simp [specFilesArgs, ih, List.append_assoc]

/-- C7: for every list of configuration-file candidates and every process
argument vector, the effective argument sequence handed to flag parsing
equals the concatenation of the split-mode arguments read from each candidate
file in candidate-list order, followed by the process's own command-line
arguments in their original order (so command-line arguments positionally
override config-file flags). -/
theorem argsEffective_eq_filesArgs_append (fs : String → Option (List String))
    (cfgs osArgs : List String) :
    argsEffective fs cfgs osArgs = specFilesArgs fs cfgs ++ osArgs := by
  unfold argsEffective
  rw [foldl_readArgs_append]
  simp

theorem splitFirstP_eq_none (p : Char → Bool) (l : List Char)
    (h : ∀ c ∈ l, p c = false) : splitFirstP p l = (l, none) := by
  induction l with
  | nil => rfl
  | cons c cs ih =>
    have hc : p c = false := h c (by simp)
    simp [splitFirstP, hc, ih (fun x hx => h x (by simp [hx]))]

theorem splitFirstP_some_spec (p : Char → Bool) :
    ∀ (l a b : List Char), splitFirstP p l = (a, some b) →
      ∃ c, p c = true ∧ l = a ++ c :: b ∧ ∀ x ∈ a, p x = false := by
  intro l
  induction l with
  | nil => intro a b h; simp [splitFirstP] at h
  | cons c cs ih =>
    intro a b h
    by_cases hc : p c
    · rw [splitFirstP, if_pos hc] at h
      injection h with ha hb
      injection hb with hb
      subst ha; subst hb
      exact ⟨c, hc, rfl, by simp⟩
    · rw [splitFirstP, if_neg hc] at h
      injection h with ha hb
      have hcs : splitFirstP p cs = ((splitFirstP p cs).1, some b) := by
        rw [← hb]
      obtain ⟨d, hd, hl, hall⟩ := ih (splitFirstP p cs).1 b hcs
      refine ⟨d, hd, ?_, ?_⟩
      · rw [← ha, List.cons_append]
        exact congrArg (List.cons c) hl
      · intro x hx
        rw [← ha] at hx
        rcases List.mem_cons.mp hx with h1 | h2
        · subst h1; simpa using hc
        · exact hall x h2

theorem splitFirstP_none_spec (p : Char → Bool) :
    ∀ (l a : List Char), splitFirstP p l = (a, none) →
      a = l ∧ ∀ c ∈ l, p c = false := by
  intro l
  induction l with
  | nil =>
    intro a h
    rw [splitFirstP] at h
    injection h with ha _
    exact ⟨ha.symm, by simp⟩
  | cons c cs ih =>
    intro a h
    by_cases hc : p c
    · rw [splitFirstP, if_pos hc] at h
      injection h with _ hb
      exact absurd hb (by simp)
    · rw [splitFirstP, if_neg hc] at h
      injection h with ha hb
      have hcs : splitFirstP p cs = ((splitFirstP p cs).1, none) := by
        rw [← hb]
      obtain ⟨h1, h2⟩ := ih (splitFirstP p cs).1 hcs
      constructor
      · rw [← ha, h1]
      · intro x hx
        rcases List.mem_cons.mp hx with hx1 | hx2
        · subst hx1; simpa using hc
        · exact h2 x hx2

theorem splitArgTwo_length (s : String) : (splitArgTwo s).length ≤ 2 := by
  unfold splitArgTwo
  rcases h : splitFirstP isRegexSpace s.data with ⟨a, _ | b⟩ <;> simp

theorem splitArgTwo_pair (s a b : String) (h : splitArgTwo s = [a, b]) :
    ∃ c, isRegexSpace c = true ∧ s.data = a.data ++ c :: b.data ∧
      ∀ x ∈ a.data, isRegexSpace x = false := by
  unfold splitArgTwo at h
  rcases hs : splitFirstP isRegexSpace s.data with ⟨a', b'⟩
  rw [hs] at h
  cases b' with
  | none => simp at h
  | some b'' =>
    simp at h
    obtain ⟨ha, hb⟩ := h
    obtain ⟨c, hc, hl, hall⟩ := splitFirstP_some_spec _ _ _ _ hs
    have hda : a.data = a' := by rw [← ha]
    have hdb : b.data = b'' := by rw [← hb]
    exact ⟨c, hc, by rw [hda, hdb]; exact hl, by rw [hda]; exact hall⟩

theorem splitArgTwo_single (s a : String) (h : splitArgTwo s = [a]) :
    a = s ∧ ∀ c ∈ s.data, isRegexSpace c = false := by
  unfold splitArgTwo at h
  rcases hs : splitFirstP isRegexSpace s.data with ⟨a', b'⟩
  rw [hs] at h
  cases b' with
  | some b'' => simp at h
  | none =>
    simp at h
    obtain ⟨h1, h2⟩ := splitFirstP_none_spec _ _ _ hs
    constructor
    · rw [← h, h1]
    · exact h2

theorem foldl_argsFileStep_true (lines : List String) :
    ∀ acc, lines.foldl (argsFileStep true) acc = acc ++ specSplitLines lines := by
  induction lines with
  | nil => intro acc; simp [specSplitLines]
  | cons l rest ih =>
    intro acc
    simp only [List.foldl_cons, ih, specSplitLines]
    by_cases hd : startsWithDash (trimSpace l) <;>
      simp [argsFileStep, hd, List.append_assoc]

theorem foldl_argsFileStep_false (lines : List String) :
    ∀ acc, lines.foldl (argsFileStep false) acc = acc ++ specNoSplitLines lines := by
  induction lines with
  | nil => intro acc; simp [specNoSplitLines]
  | cons l rest ih =>
    intro acc
    simp only [List.foldl_cons, ih, specNoSplitLines]
    simp [argsFileStep, List.append_assoc]

/-- C8 (amended): for every existing configuration file read in split mode,
each trimmed line starting with a dash is split into at most two tokens at
the first whitespace character (the second token being the remainder of the
line after that character, kept verbatim, including any further whitespace),
both tokens are appended to the output in line order, and every trimmed line
not starting with a dash is discarded; in no-split mode every trimmed line is
appended verbatim regardless of its first character. -/
theorem readArgsFile_modes (fs : String → Option (List String)) (file : String)
    (lines : List String) (h : fs file = some lines) :
    readArgsFile fs file true = specSplitLines lines ∧
    readArgsFile fs file false = specNoSplitLines lines ∧
    (∀ s : String, (splitArgTwo s).length ≤ 2) ∧
    (∀ s a b : String, splitArgTwo s = [a, b] →
      ∃ c, isRegexSpace c = true ∧ s.data = a.data ++ c :: b.data ∧
        ∀ x ∈ a.data, isRegexSpace x = false) ∧
    (∀ s a : String, splitArgTwo s = [a] →
      a = s ∧ ∀ c ∈ s.data, isRegexSpace c = false) := by
  refine ⟨?_, ?_, splitArgTwo_length, splitArgTwo_pair, splitArgTwo_single⟩ <;>
    simp [readArgsFile, h, foldl_argsFileStep_true, foldl_argsFileStep_false]

theorem readArgsFile_modes_w :
    readArgsFile (fun _ => some ["-a  b", "x", ""]) "f" true = ["-a", " b"] ∧
    readArgsFile (fun _ => some ["-a  b", "x", ""]) "f" false = ["-a  b", "x", ""] := by
  have h := readArgsFile_modes (fun _ => some ["-a  b", "x", ""]) "f"
    ["-a  b", "x", ""] rfl
  exact ⟨h.1.trans (by decide), h.2.1.trans (by decide)⟩

/-- C8 counterexample: the claim as stated splits a flag line on the first
whitespace run, which on the trimmed line consisting of dash, `a`, two
spaces and `b` would give the tokens `-a` and `b`; the code splits on the
first whitespace character only and keeps the remainder verbatim, giving
`-a` and a second token that still carries the second space. -/
theorem readArgsFile_run_split_cex :
    readArgsFile (fun _ => some ["-a  b"]) "cfg" true = ["-a", " b"] ∧
    readArgsFile (fun _ => some ["-a  b"]) "cfg" true ≠ ["-a", "b"] := by
  exact ⟨rfl, by decide⟩

theorem foldl_mapSet_of_lookupLast_none (entries : List (String × String)) :
    ∀ (m : EnvMap) (k : String), lookupLast entries k = none →
      (entries.foldl (fun m kv => mapSet m kv.1 kv.2) m) k = m k := by
  induction entries with
  | nil => intro m k _; rfl
  | cons kv rest ih =>
    intro m k h
    rw [lookupLast] at h
    rcases hr : lookupLast rest k with _ | w
    · rw [hr] at h
      simp only [] at h
      have hk : ¬kv.1 = k := by
        intro he
        rw [if_pos he] at h
        exact Option.noConfusion h
      have hk2 : ¬k = kv.1 := fun he => hk he.symm
      simp only [List.foldl_cons]
      rw [ih _ k hr]
      simp [mapSet, hk2]
    · rw [hr] at h
      exact Option.noConfusion h

theorem foldl_mapSet_lookupLast (entries : List (String × String)) :
    ∀ (m : EnvMap) (k v : String), lookupLast entries k = some v →
      (entries.foldl (fun m kv => mapSet m kv.1 kv.2) m) k = some v := by
  induction entries with
  | nil => intro m k v h; simp [lookupLast] at h
  | cons kv rest ih =>
    intro m k v h
    rw [lookupLast] at h
    rcases hr : lookupLast rest k with _ | w
    · rw [hr] at h
      simp only [] at h
      have hk : kv.1 = k := by
        by_cases he : kv.1 = k
        · exact he
        · rw [if_neg he] at h; exact absurd h (by simp)
      rw [if_pos hk] at h
      injection h with hv
      simp only [List.foldl_cons]
      rw [foldl_mapSet_of_lookupLast_none rest _ k hr]
      simp [mapSet, hk, hv]
    · rw [hr] at h
      simp only [] at h
      simp only [List.foldl_cons]
      exact ih _ k v (by rw [hr]; exact h)

/-- C9: a bare explicit key token (from the env, input or secret argument
lists) yields the empty-string value, and every key set both by an explicit
token and by an entry of the corresponding loaded file ends up with the
file's value, because explicit tokens are written to the map before the file
is read into the same map. -/
theorem loadEnvs_file_wins :
    (∀ (m : EnvMap) (t : String), (∀ c ∈ t.data, (c == '=') = false) →
      parseEnvs [t] m t = some "") ∧
    (∀ (tokens : List String) (entries : List (String × String)) (k v : String),
      lookupLast entries k = some v → loadEnvs tokens (some entries) k = some v) := by
  constructor
  · intro m t h
    simp only [parseEnvs, List.foldl_cons, List.foldl_nil]
    rw [splitFirstP_eq_none _ _ h]
    simp [mapSet]
  · intro tokens entries k v h
    simp only [loadEnvs, readEnvs]
    exact foldl_mapSet_lookupLast entries _ k v h

theorem loadEnvs_file_wins_w :
    parseEnvs ["BAR"] (fun _ => none) "BAR" = some "" ∧
    loadEnvs ["FOO=cli"] (some [("FOO", "file")]) "FOO" = some "file" :=
  ⟨loadEnvs_file_wins.1 (fun _ => none) "BAR" (by decide),
   loadEnvs_file_wins.2 ["FOO=cli"] [("FOO", "file")] "FOO" "file" (by decide)⟩

theorem resolveExecEventName_eq_amended (args events : List String) (auto : Bool)
    (hne : ∀ e ∈ events, e ≠ "") :
    resolveExecEventName args events auto =
      specExecEventNameAmended args events auto := by
  cases args with
  | cons a as => simp [resolveExecEventName, specExecEventNameAmended]
  | nil =>
    rw [resolveExecEventName, specExecEventNameAmended]
    rw [if_neg (by simp)]
    cases events with
    | nil => simp
    | cons e es =>
      have he : e ≠ "" := hne e (by simp)
      have hel : 0 < e.length := strLength_pos e he
      cases es with
      | nil => simp [hel]
      | cons f fs => simp [hel]

/-- C1 counterexample: with the duplicated discovered-events list containing
`a` twice, no positional argument, no job ID and auto-detect disabled,
exactly one distinct discovered event exists, so the claim's precedence
(step 2) resolves the event `a`, as the spec-side resolution function shows;
the code checks that the list has exactly one entry, so it falls through to
the default and builds the plan for `push`. -/
theorem execPlanSel_distinct_cex :
    execPlanSel "" [] ["a", "a"] false = PlanSel.event "push" ∧
    specExecEventName [] ["a", "a"] false = "a" ∧
    PlanSel.event "push" ≠ PlanSel.event "a" := by
  decide

/-- C1 (amended): execution-plan resolution follows exactly this precedence:
a given positional event-name argument wins; else, when the discovered-events
list contains exactly one event, that event is used without requiring the
auto-detect flag; else, with auto-detect enabled and at least one discovered
event, the first discovered event is used; else the fixed default event name
`push`.  Then a given job ID builds the plan by job ID (the resolved event
name is ignored for plan construction), otherwise the plan is built for the
resolved event name.  Event names are modelled as non-empty strings; the
discovered list may be empty or contain duplicates. -/
theorem execPlanSel_amended (jobID : String) (args events : List String)
    (auto : Bool) (hne : ∀ e ∈ events, e ≠ "") :
    execPlanSel jobID args events auto =
      if jobID ≠ "" then PlanSel.job jobID
      else PlanSel.event (specExecEventNameAmended args events auto) := by
  unfold execPlanSel
  rw [resolveExecEventName_eq_amended args events auto hne]

theorem execPlanSel_amended_w :
    execPlanSel "" [] ["a", "a"] true = PlanSel.event "a" := by
  have h := execPlanSel_amended "" [] ["a", "a"] true (by decide)
  exact h.trans (by decide)

/-- C2: filter-plan resolution (list/graph output only) follows exactly this
precedence: an explicitly given job ID wins; else a given positional
event-name argument builds the plan for that event; else, with auto-detect
enabled and at least one discovered event, the plan is built for the first
discovered event; else the plan covers all jobs with no event or job filter.
Event names are modelled as non-empty strings. -/
theorem filterPlanSel_spec (jobID : String) (args events : List String)
    (auto : Bool) (ha : ∀ a ∈ args, a ≠ "") (hne : ∀ e ∈ events, e ≠ "") :
    filterPlanSel jobID args events auto = specFilterPlanSel jobID args events auto := by
  unfold filterPlanSel specFilterPlanSel
  by_cases hj : jobID = ""
  · simp only [hj, ne_eq, not_true_eq_false, if_false, ite_false]
    cases args with
    | cons a as =>
      have ha0 : a ≠ "" := ha a (by simp)
      simp [ha0]
    | nil =>
      cases events with
      | nil => simp
      | cons e es =>
        have he : e ≠ "" := hne e (by simp)
        have hel : 0 < e.length := strLength_pos e he
        by_cases hauto : auto <;> simp [hauto, he, hel]
  · simp [hj]

theorem filterPlanSel_spec_w :
    filterPlanSel "" ["push"] [] false = PlanSel.event "push" := by
  have h := filterPlanSel_spec "" ["push"] [] false (by decide) (by decide)
  exact h.trans (by decide)

/-- C3: with exactly one discovered event, no positional event argument and
no job ID, execution-plan resolution selects that single event even when
auto-detect is disabled, while filter-plan resolution, which has no
single-event shortcut, selects the all-jobs plan unless auto-detect is
enabled (in which case it selects that event). -/
theorem singleEvent_asymmetry (e : String) (auto : Bool) (he : e ≠ "") :
    execPlanSel "" [] [e] auto = PlanSel.event e ∧
    filterPlanSel "" [] [e] auto = (if auto then PlanSel.event e else PlanSel.all) := by
  have hel : 0 < e.length := strLength_pos e he
  constructor
  · simp [execPlanSel, resolveExecEventName, hel]
  · cases auto <;> simp [filterPlanSel, he, hel]

theorem singleEvent_asymmetry_w :
    execPlanSel "" [] ["push"] false = PlanSel.event "push" ∧
    filterPlanSel "" [] ["push"] false = PlanSel.all := by
  have h := singleEvent_asymmetry "push" false (by decide)
  exact ⟨h.1, h.2.trans (by decide)⟩

/-- C4 (falsified by the code): with an executor that succeeds on its first
invocation and fails on its second, batch-triggered, invocation, the claim
expects exactly two invocations and that failure as the loop's result; the
code's inner `break` leaves only the change-batch loop, so the outer loop
immediately re-invokes the executor, a further batch is consumed, and with
two pending batches the loop performs four invocations and ends with no
error after cancellation. -/
theorem watchLoop_second_failure_cex :
    watchAndRunLoop (fun k => if k = 1 then some "boom" else none) 2 = (4, none) ∧
    ((4, (none : Option String)) ≠ ((2 : Nat), some "boom")) := by
  exact ⟨rfl, by decide⟩

theorem watchInnerGo_last (fn : Nat → Option String) :
    ∀ (b k : Nat), 1 ≤ k → fn (k - 1) = none →
      1 ≤ (watchInnerGo fn k b).1 ∧ (watchInnerGo fn k b).2 =
        fn ((watchInnerGo fn k b).1 - 1) := by
  intro b
  induction b with
  | zero =>
    intro k hk h
    exact ⟨hk, h.symm⟩
  | succ b ih =>
    intro k hk h
    rw [watchInnerGo]
    cases hfk : fn k with
    | none => exact ih (k + 1) (by omega) (by simpa using hfk)
    | some e =>
      cases hfk1 : fn (k + 1) with
      | some e2 =>
        show 1 ≤ k + 2 ∧ some e2 = fn (k + 2 - 1)
        refine ⟨by omega, ?_⟩
        have h21 : k + 2 - 1 = k + 1 := by omega
        rw [h21, hfk1]
      | none => exact ih (k + 2) (by omega) (by simpa using hfk1)

/-- C6: for every watch-mode run, the value the watch loop returns after
cancellation is exactly the result (possibly nil) of the most recent
completed execution pass: at least one pass runs, and the loop's final error
is the last invocation's result, never a nil that masks it. -/
theorem watchAndRunLoop_last_result (fn : Nat → Option String) (batches : Nat) :
    1 ≤ (watchAndRunLoop fn batches).1 ∧
      (watchAndRunLoop fn batches).2 = fn ((watchAndRunLoop fn batches).1 - 1) := by
  rw [watchAndRunLoop]
  cases hf : fn 0 with
  | some e =>
    show 1 ≤ 1 ∧ some e = fn (1 - 1)
    exact ⟨le_refl 1, by simpa using hf.symm⟩
  | none => exact watchInnerGo_last fn batches 1 (by omega) (by simpa using hf)

/-- C5: in non-watch mode, with an empty artifact-service storage path no
artifact service is started or stopped; with a non-empty path the service is
started exactly once before the plan executor runs and its cancellation
function is invoked exactly once after the executor completes, whether the
executor succeeded or failed, and the executor's error (if any) is still
returned to the caller. -/
theorem nonWatchRun_lifecycle (path : String) (res : Option String) :
    (path = "" → nonWatchRun path (planExecOnce res) = ([LifeEvent.exec], res)) ∧
    (path ≠ "" →
      nonWatchRun path (planExecOnce res) =
        ([LifeEvent.serveStart, LifeEvent.exec, LifeEvent.serveStop], res)) := by
  constructor <;> intro h <;>
    simp [nonWatchRun, finallyExec, planExecOnce, artifactsServeEffect,
      artifactsCancelEffect, h]

theorem nonWatchRun_lifecycle_w :
    nonWatchRun "" (planExecOnce none) = ([LifeEvent.exec], none) ∧
    nonWatchRun "p" (planExecOnce (some "boom")) =
      ([LifeEvent.serveStart, LifeEvent.exec, LifeEvent.serveStop], some "boom") :=
  ⟨(nonWatchRun_lifecycle "" none).1 rfl,
   (nonWatchRun_lifecycle "p" (some "boom")).2 (by decide)⟩

/-- C10: in watch mode the cancellation function returned by starting the
artifact service is never invoked on any path: the executor handed to the
watch loop is the bare plan executor with no cleanup stage, and nothing
after the watch loop invokes the cancellation, so no service-stop event ever
appears in the trace. -/
theorem watchModeRun_no_cancel (path : String) (fn : Nat → Option String)
    (batches : Nat) : LifeEvent.serveStop ∉ (watchModeRun path fn batches).1 := by
  by_cases h : path = "" <;>
    simp [watchModeRun, artifactsServeEffect, h, List.mem_replicate]


end Act
